import Mathlib

/-!
Verification of the bill-splitting program `bill_splitter.py`.

The program is shallowly embedded here:

* Python `decimal.Decimal` values are modelled as exact rationals (`ℚ`).
  The only inexact Decimal operation the program performs is division,
  which in Python carries 28 significant digits; the spec mandates full
  precision ("computed at full precision, not rounded at this stage"),
  so the embedding uses exact division.  `NaN`/`Infinity` special values
  and exponent notation, which `Decimal(...)` would also accept, are
  outside the embedding's numeric domain.
* Python strings are modelled as `List Char`; `str.strip` strips
  whitespace characters, `str.lower` lowercases via `Char.toLower`.
* The mutable `BillSplitter` object is modelled as a record threaded
  through the parsing functions; a raised `ValueError` is modelled as
  `Except.error (message, state-at-raise-time)` so that claims about
  the state at the moment an exception is raised are expressible.

Because `Rat.add`/`Rat.sub`/`Rat.mul`/`Rat.inv` are `irreducible`, the
embedding computes with kernel-reducible wrappers `qadd`, `qsub`,
`qmul`, `qdiv` built on `mkRat`/`Rat.divInt`; the lemmas `qadd_eq`,
`qsub_eq`, `qmul_eq`, `qdiv_eq` prove that each wrapper is exactly the
corresponding field operation of `ℚ`, so nothing is changed
semantically and concrete runs still evaluate by `decide`.
-/

/-- Kernel-reducible addition on `ℚ` (equal to `+` by `qadd_eq`). -/
def qadd (a b : ℚ) : ℚ := mkRat (a.num * b.den + b.num * a.den) (a.den * b.den)

/-- Kernel-reducible subtraction on `ℚ` (equal to `-` by `qsub_eq`). -/
def qsub (a b : ℚ) : ℚ := mkRat (a.num * b.den - b.num * a.den) (a.den * b.den)

/-- Kernel-reducible multiplication on `ℚ` (equal to `*` by `qmul_eq`). -/
def qmul (a b : ℚ) : ℚ := Rat.divInt (a.num * b.num) ((a.den : ℤ) * b.den)

/-- Kernel-reducible division on `ℚ` (equal to `/` by `qdiv_eq`); like
Python `Decimal` division it is total only because we never divide by zero. -/
def qdiv (a b : ℚ) : ℚ := Rat.divInt (a.num * b.den) (b.num * a.den)

theorem qadd_eq (a b : ℚ) : qadd a b = a + b := (Rat.add_def' a b).symm

theorem qsub_eq (a b : ℚ) : qsub a b = a - b := (Rat.sub_def' a b).symm

theorem qmul_eq (a b : ℚ) : qmul a b = a * b := by
  unfold qmul
  rw [Rat.divInt_eq_div]
  push_cast
  conv_rhs => rw [← Rat.num_div_den a, ← Rat.num_div_den b]
  rw [div_mul_div_comm]

theorem qdiv_eq (a b : ℚ) : qdiv a b = a / b := by
  unfold qdiv
  rw [Rat.divInt_eq_div]
  push_cast
  rcases eq_or_ne b 0 with hb | hb
  · subst hb; simp
  · have had : ((a.den : ℚ)) ≠ 0 := by exact_mod_cast a.den_nz
    have hbd : ((b.den : ℚ)) ≠ 0 := by exact_mod_cast b.den_nz
    have hbn : ((b.num : ℚ)) ≠ 0 := by exact_mod_cast Rat.num_ne_zero.mpr hb
    have ea : ((a.num : ℚ)) = a * a.den := (div_eq_iff had).mp (Rat.num_div_den a)
    have eb : ((b.num : ℚ)) = b * b.den := (div_eq_iff hbd).mp (Rat.num_div_den b)
    rw [div_eq_div_iff (by exact mul_ne_zero hbn had) hb, ea, eb]
    ring

/-- Kernel-reducible floor of a rational. -/
def qfloor (q : ℚ) : ℤ := q.num / (q.den : ℤ)

theorem qfloor_eq (q : ℚ) : qfloor q = ⌊q⌋ := Rat.floor_def.symm

/-- Kernel-reducible ceiling of a rational. -/
def qceil (q : ℚ) : ℤ := -qfloor (-q)

theorem qceil_eq (q : ℚ) : qceil q = ⌈q⌉ := by
  unfold qceil
  rw [qfloor_eq, Int.floor_neg, neg_neg]

/-- Rounding to two decimal places with ties going away from zero: the
embedding of `Decimal.quantize` to two decimals with `ROUND_HALF_UP`
applied to an exact rational. -/
def roundHU (x : ℚ) : ℚ :=
  if 0 ≤ x then mkRat (qfloor (qadd (qmul x 100) (mkRat 1 2))) 100
  else mkRat (qceil (qsub (qmul x 100) (mkRat 1 2))) 100

/-- Nearest integer with ties to the even integer (bankers rounding). -/
def roundHEint (y : ℚ) : ℤ :=
  if qsub y (mkRat (qfloor y) 1) < mkRat 1 2 then qfloor y
  else if mkRat 1 2 < qsub y (mkRat (qfloor y) 1) then qfloor y + 1
  else if qfloor y % 2 = 0 then qfloor y else qfloor y + 1

/-- Rounding to two decimal places with ties to even: the embedding of
`Decimal.quantize` to two decimals with the default `ROUND_HALF_EVEN`
context rounding, applied to an exact rational. -/
def roundHE (x : ℚ) : ℚ := mkRat (roundHEint (qmul x 100)) 100

theorem roundHU_def (x : ℚ) :
    roundHU x = if 0 ≤ x then (⌊x * 100 + 1/2⌋ : ℚ) / 100 else (⌈x * 100 - 1/2⌉ : ℚ) / 100 := by
  unfold roundHU
  rw [qmul_eq, qadd_eq, qsub_eq, qfloor_eq, qceil_eq, Rat.mkRat_eq_div, Rat.mkRat_eq_div,
    Rat.mkRat_eq_div]
  norm_num

theorem roundHE_def (x : ℚ) : roundHE x = (roundHEint (x * 100) : ℚ) / 100 := by
  unfold roundHE
  rw [qmul_eq, Rat.mkRat_eq_div]
  norm_num

theorem roundHEint_def (y : ℚ) :
    roundHEint y = if y - ⌊y⌋ < 1/2 then ⌊y⌋
      else if 1/2 < y - (⌊y⌋ : ℚ) then ⌊y⌋ + 1
      else if ⌊y⌋ % 2 = 0 then ⌊y⌋ else ⌊y⌋ + 1 := by
  unfold roundHEint
  rw [qsub_eq, qfloor_eq, Rat.mkRat_eq_div, Rat.mkRat_eq_div]
  norm_num

/-!
String utilities.  Python strings are modelled as `List Char`.
-/

/-- Python `str.strip()` on the left: drop leading whitespace.
Whitespace is modelled by `Char.isWhitespace` (space, tab, CR, LF);
Python also strips vertical tab, form feed and Unicode spaces, which
never occur in the inputs of interest. -/
def trimL (l : List Char) : List Char := l.dropWhile Char.isWhitespace

/-- Python `str.strip()` on the right: drop trailing whitespace. -/
def trimR (l : List Char) : List Char := (l.reverse.dropWhile Char.isWhitespace).reverse

/-- Python `str.strip()`: drop surrounding whitespace. -/
def trim (l : List Char) : List Char := trimL (trimR l)

/-- Python `str.startswith` / substring matching at a position: does
`pfx` occur at the head of `l`?  (Equivalent to `List.isPrefixOf`, but
defined by recursion on the pattern so that it reduces when the pattern
is exhausted even if the rest of `l` is symbolic.) -/
def startsWithPfx : List Char → List Char → Bool
  | [], _ => true
  | _ :: _, [] => false
  | p :: ps, c :: cs => if p = c then startsWithPfx ps cs else false

/-- Python `s.split(sep, 1)` when it succeeds: split at the first
occurrence of `sep`, returning the parts before and after it;
`none` when `sep` does not occur (where Python 2-tuple unpacking of
the 1-element result raises `ValueError`). -/
def splitFirst (sep : List Char) : List Char → Option (List Char × List Char)
  | [] => none
  | c :: rest =>
    if startsWithPfx sep (c :: rest) then some ([], (c :: rest).drop sep.length)
    else
      match splitFirst sep rest with
      | some (a, b) => some (c :: a, b)
      | none => none

/-- Python `s.split(sep)` for a one-character separator: always returns a
non-empty list of (possibly empty) parts; on the empty string it returns
one empty part, exactly as the Python split of an empty string on a
comma yields a list holding one empty string. -/
def splitOnChar (sep : Char) : List Char → List (List Char)
  | [] => [[]]
  | c :: rest =>
    if c = sep then [] :: splitOnChar sep rest
    else
      match splitOnChar sep rest with
      | [] => [[c]]
      | a :: as => (c :: a) :: as

/-- Python `line.split(':', 1)[1]`, used only on lines already known to
contain a colon (a matched directive prefix ends in one). -/
def splitColonTail (l : List Char) : List Char :=
  match splitFirst [':'] l with
  | some (_, t) => t
  | none => []

/-!
Data model, mirroring the classes of `bill_splitter.py`.
-/

/-- One parsed item line (`BillEntry.__init__` strips the item name and
each participant name; `price_per_person` is derived, see
`price_per_person` below, rather than stored). -/
structure BillEntry where
  item : List Char
  people : List (List Char)
  price : ℚ
deriving DecidableEq, Repr

/-- The `price / len(people)` computed in `BillEntry.__init__`.
Exact division of rationals; the participant list of a parsed entry is
never empty. -/
def price_per_person (e : BillEntry) : ℚ := qdiv e.price (e.people.length : ℚ)

/-- The discount tag: the code stores the Python string `value` or
`percentage` as the first component of `discount`. -/
inductive DiscountKind where
  | value : DiscountKind
  | percentage : DiscountKind
deriving DecidableEq, Repr

/-- The mutable state of a `BillSplitter` object.  `people_set` is a
Python `set`; it is modelled as its list of elements in insertion order,
without duplicates (iteration order never matters: every computation
that iterates over it is an order-independent sum, and the final output
is sorted). -/
structure BillSplitter where
  entries : List BillEntry
  charge : ℚ
  discount : DiscountKind × ℚ
  total_before_adjustments : ℚ
  people_set : List (List Char)
deriving DecidableEq, Repr

/-- The state built by `BillSplitter.__init__`. -/
def initialState : BillSplitter :=
  { entries := [], charge := 0, discount := (DiscountKind.value, 0),
    total_before_adjustments := 0, people_set := [] }

/-- Python `set.update(people)`: insert each name not already present. -/
def updateSet (s : List (List Char)) (people : List (List Char)) : List (List Char) :=
  people.foldl (fun acc p => if p ∈ acc then acc else acc ++ [p]) s

/-!
The line parser.
-/

/-- The numeral grammar used for `Decimal(s)` in `parse_price`:
an optional sign, then digits with at most one decimal point and at
least one digit.  (Python's `Decimal` also accepts exponent notation,
grouping underscores and the special values `NaN`/`Infinity`; those are
outside this embedding's numeric domain, see the header.) -/
def digitsVal (ds : List Char) : ℕ := ds.foldl (fun n c => 10 * n + (c.toNat - 48)) 0

/-- Parse an unsigned decimal numeral (`12`, `12.5`, `.5`, `5.`). -/
def parseUnsigned (s : List Char) : Option ℚ :=
  match s.dropWhile Char.isDigit with
  | [] => if s = [] then none else some (mkRat (digitsVal s) 1)
  | '.' :: frac =>
    if frac.all Char.isDigit ∧ (s.takeWhile Char.isDigit ≠ [] ∨ frac ≠ []) then
      some (mkRat (digitsVal (s.takeWhile Char.isDigit) * 10 ^ frac.length + digitsVal frac)
        (10 ^ frac.length))
    else none
  | _ => none

/-- Parse a decimal numeral with optional sign. -/
def parseDecimal : List Char → Option ℚ
  | '-' :: rest => (parseUnsigned rest).map (fun q => qsub 0 q)
  | '+' :: rest => parseUnsigned rest
  | s => parseUnsigned s

/-- `BillSplitter.parse_price`: strip, then convert to a number, raising
`ValueError("Invalid price format: ...")` (with the unstripped argument
in the message) on failure. -/
def parse_price (s : List Char) : Except (List Char) ℚ :=
  match parseDecimal (trim s) with
  | some q => Except.ok q
  | none => Except.error (("Invalid price format: ").data ++ s)

/-- `BillSplitter.parse_people_list`: `re.match` of the lazy pattern
matching a leading `[`, then the shortest run of characters up to the
first `]`; the bracket body is comma-split and each part stripped.
With no leading `[` or no `]` at all the regex fails to match.  (The
regex dot does not match a newline, but lines read from the input file
never contain one.) -/
def parse_people_list (s : List Char) : Except (List Char) (List (List Char)) :=
  match trim s with
  | '[' :: rest =>
    match splitFirst [']'] rest with
    | some (inner, _) => Except.ok ((splitOnChar ',' inner).map trim)
    | none => Except.error (("Invalid people list format: ").data ++ s)
  | _ => Except.error (("Invalid people list format: ").data ++ s)

/-- The message of Python's `ValueError` raised when unpacking a
1-element `split` result into two variables. -/
def unpackMsg : List Char := ("not enough values to unpack (expected 2, got 1)").data

/-- The wrapping applied by the `except ValueError` handler of `parse_line`:
the prefix `Error parsing line `, a quote character, the stripped
line, a quote character, then a colon, a space and the inner message. -/
def wrapMsg (line inner : List Char) : List Char :=
  ("Error parsing line ").data ++ [Char.ofNat 39] ++ line ++ [Char.ofNat 39] ++
    (": ").data ++ inner

/-- The discount-directive body (lines 49–55): a trailing `%` makes the
value a percentage discount, otherwise it is a flat discount; `dv` is
the stripped text after the colon. -/
def parse_discount_body (s : BillSplitter) (dv : List Char) :
    Except (List Char × BillSplitter) BillSplitter :=
  if dv.getLast? = some '%' then
    match parse_price dv.dropLast with
    | Except.error e => Except.error (e, s)
    | Except.ok q => Except.ok { s with discount := (DiscountKind.percentage, q) }
  else
    match parse_price dv with
    | Except.error e => Except.error (e, s)
    | Except.ok q => Except.ok { s with discount := (DiscountKind.value, q) }

/-- The item branch of `parse_line` (the `try` block, lines 57–79):
split on the first `],`, split the head on the first `[`, parse the
price, parse the people list, reject an empty people list, then append
the entry and update the derived state.  Each raised `ValueError` is
wrapped by the handler into the `Error parsing line` message with the
stripped line; `line` is the stripped line. -/
def parse_item_line (s : BillSplitter) (line : List Char) :
    Except (List Char × BillSplitter) BillSplitter :=
  match splitFirst ("],").data line with
  | none => Except.error (wrapMsg line unpackMsg, s)
  | some (item_and_people, price_part) =>
    match splitFirst ("[").data item_and_people with
    | none => Except.error (wrapMsg line unpackMsg, s)
    | some (item, people_body) =>
      match parse_price price_part with
      | Except.error e => Except.error (wrapMsg line e, s)
      | Except.ok price =>
        match parse_people_list ('[' :: people_body ++ [']']) with
        | Except.error e => Except.error (wrapMsg line e, s)
        | Except.ok people =>
          if people = [] then
            Except.error (wrapMsg line (("Empty people list for item: ").data ++ item), s)
          else
            Except.ok { s with
              people_set := updateSet s.people_set people,
              entries := s.entries ++
                [{ item := trim item, people := people.map trim, price := price }],
              total_before_adjustments := qadd s.total_before_adjustments price }

/-- `BillSplitter.parse_line` on the already-stripped line: a blank line
is ignored, a `charge:`/`discount:`/`disount:` case-insensitive prefix
selects a directive, anything else is an item line. -/
def parse_line_core (s : BillSplitter) (line : List Char) :
    Except (List Char × BillSplitter) BillSplitter :=
  if line = [] then Except.ok s
  else if startsWithPfx (("charge:").data) (line.map Char.toLower) then
    match parse_price (splitColonTail line) with
    | Except.error e => Except.error (e, s)
    | Except.ok q => Except.ok { s with charge := q }
  else if startsWithPfx (("discount:").data) (line.map Char.toLower) ∨
      startsWithPfx (("disount:").data) (line.map Char.toLower) then
    parse_discount_body s (trim (splitColonTail line))
  else parse_item_line s line

/-- `BillSplitter.parse_line`.  An error carries the `ValueError`
message together with the state of the object at the moment the
exception is raised (the code mutates `people_set`, `entries` and
`total_before_adjustments` only after every parsing step of an item
line has succeeded, and assigns `charge`/`discount` only after the
value has parsed). -/
def parse_line (s : BillSplitter) (line0 : List Char) :
    Except (List Char × BillSplitter) BillSplitter :=
  parse_line_core s (trim line0)

/-!
The allocation engine (`calculate_shares`).
-/

/-- The loop of `calculate_shares` that adds `amt` to the share of each
occurrence of a name in `people` (a name occurring `k` times receives
`k * amt`).  Shares are modelled as a total function that is `0` off
`people_set`; the code maintains `shares` and `individual_totals` as two
dictionaries updated identically up to the adjustment phase, so a single
function serves as both. -/
def addAmount (f : List Char → ℚ) (people : List (List Char)) (amt : ℚ) : List Char → ℚ :=
  people.foldl (fun g p => fun q => if q = p then qadd (g q) amt else g q) f

/-- The base shares after the first loop of `calculate_shares`:
each entry contributes `price_per_person` to every occurrence of a name
in its participant list. -/
def baseShares (entries : List BillEntry) : List Char → ℚ :=
  entries.foldl (fun f e => addAmount f e.people (price_per_person e)) (fun _ => 0)

/-- Sum of a rational-valued function over a list of names using the
kernel-reducible addition. -/
def qsum (l : List (List Char)) (f : List Char → ℚ) : ℚ := (l.map f).foldl qadd 0

/-- `total_spending = sum(individual_totals.values())`. -/
def totalSpending (b : BillSplitter) : ℚ := qsum b.people_set (baseShares b.entries)

/-- The shares after the charge step (lines 97–102): when
`total_spending > 0` and `charge != 0`, each participant's share grows
by `charge * (individual_totals[p] / total_spending)`. -/
def sharesAfterCharge (b : BillSplitter) : List Char → ℚ :=
  if 0 < totalSpending b ∧ b.charge ≠ 0 then
    fun p => qadd (baseShares b.entries p)
      (qmul b.charge (qdiv (baseShares b.entries p) (totalSpending b)))
  else baseShares b.entries

/-- The `discount_amount` of lines 105–114: a percentage discount is
`round2((total_before_adjustments + charge) * (pct / 100))` with
half-up rounding; a flat discount is used as given. -/
def discount_amount (b : BillSplitter) : ℚ :=
  match b.discount.1 with
  | DiscountKind.percentage =>
    roundHU (qmul (qadd b.total_before_adjustments b.charge) (qdiv b.discount.2 100))
  | DiscountKind.value => b.discount.2

/-- The shares after the discount step (lines 104–118): when
`total_spending > 0` and the discount magnitude is non-zero, each
participant's share shrinks by
`discount_amount * (individual_totals[p] / total_spending)` (with the
original `individual_totals` and `total_spending`). -/
def adjustedShares (b : BillSplitter) : List Char → ℚ :=
  if 0 < totalSpending b ∧ b.discount.2 ≠ 0 then
    fun p => qsub (sharesAfterCharge b p)
      (qmul (discount_amount b) (qdiv (baseShares b.entries p) (totalSpending b)))
  else sharesAfterCharge b

/-- `total_after_adjustments = sum(shares.values())`. -/
def totalAfterAdjustments (b : BillSplitter) : ℚ := qsum b.people_set (adjustedShares b)

/-- Python `sorted(shares.keys())`: the participant names in ascending
lexicographic (code-point) order. -/
def sortedPeople (b : BillSplitter) : List (List Char) :=
  List.insertionSort (fun a c => a ≤ c) b.people_set

/-- The rounding loop of `calculate_shares` (lines 124–138): round every
share but the last half-up while accumulating `running_total`, then give
the lexicographically last participant
`total_after_adjustments - running_total` quantized to two decimals
with the context default `ROUND_HALF_EVEN`.  The result is
the association list of the `rounded_shares` dict in insertion order
(sorted order).  `none` models the `IndexError` that
`sorted_people[-1]` raises when the bill has no participants at all. -/
def calculate_shares (b : BillSplitter) : Option (List (List Char × ℚ)) :=
  if sortedPeople b = [] then none
  else
    let step := (sortedPeople b).dropLast.foldl
      (fun (acc : List (List Char × ℚ) × ℚ) p =>
        (acc.1 ++ [(p, roundHU (adjustedShares b p))], qadd acc.2 (roundHU (adjustedShares b p))))
      ([], 0)
    some (step.1 ++
      [((sortedPeople b).getLastD [], roundHE (qsub (totalAfterAdjustments b) step.2))])

/-!
File processing (`process_file`).
-/

/-- The two failure modes of `process_file` that matter to the claims: a
`ValueError` from `parse_line` caught at a 1-based line number (printed
as `Error on line <n>: <msg>` before returning with no report), or the
uncaught exception escaping `calculate_shares` on a bill with no
participants (caught by the outer `except Exception` handler and printed
as a processing error; no report). -/
inductive ProcError where
  | parseError : ℕ → List Char → ProcError
  | calcError : ProcError
deriving DecidableEq, Repr

/-- The parsing loop of `process_file`: feed each line to `parse_line`,
stopping at the first failure with its 1-based line number. -/
def parseAll (s : BillSplitter) (n : ℕ) : List (List Char) → Except ProcError BillSplitter
  | [] => Except.ok s
  | l :: ls =>
    match parse_line s l with
    | Except.error (e, _) => Except.error (ProcError.parseError n e)
    | Except.ok s' => parseAll s' (n + 1) ls

/-- `BillSplitter.process_file`, modelled on the list of input lines:
parse every line, then compute the shares.  A success carries the
`SharesResult` that the report is printed from. -/
def process_file (lines : List (List Char)) : Except ProcError (List (List Char × ℚ)) :=
  match parseAll initialState 1 lines with
  | Except.error e => Except.error e
  | Except.ok s =>
    match calculate_shares s with
    | none => Except.error ProcError.calcError
    | some r => Except.ok r

/-!
Closed forms for the allocation computations, and the state invariant
maintained by the parser.
-/

theorem foldl_qadd (m : List ℚ) (a : ℚ) : m.foldl qadd a = a + m.sum := by
  induction m generalizing a with
  | nil => simp
  | cons x m' ih => simp [ih, qadd_eq, add_assoc]

theorem qsum_eq (l : List (List Char)) (f : List Char → ℚ) : qsum l f = (l.map f).sum := by
  unfold qsum
  rw [foldl_qadd, zero_add]

theorem addAmount_apply (f : List Char → ℚ) (people : List (List Char)) (amt : ℚ)
    (q : List Char) :
    addAmount f people amt q = f q + ((people.count q : ℕ) : ℚ) * amt := by
  induction people generalizing f with
  | nil => simp [addAmount]
  | cons p ps ih =>
    simp only [addAmount, List.foldl_cons] at ih ⊢
    rw [ih]
    by_cases h : q = p
    · subst h
      simp only [if_pos rfl, qadd_eq, List.count_cons, beq_self_eq_true, if_pos]
      push_cast
      ring
    · have h2 : ¬(p == q) = true := by simp [beq_iff_eq]; exact fun hc => h hc.symm
      simp only [if_neg h, List.count_cons, if_neg h2]
      push_cast
      ring

theorem baseShares_foldl (entries : List BillEntry) (f : List Char → ℚ) (q : List Char) :
    (entries.foldl (fun g e => addAmount g e.people (price_per_person e)) f) q
      = f q + (entries.map (fun e => ((e.people.count q : ℕ) : ℚ) * price_per_person e)).sum := by
  induction entries generalizing f with
  | nil => simp
  | cons e es ih =>
    simp only [List.foldl_cons, ih, addAmount_apply, List.map_cons, List.sum_cons]
    ring

theorem baseShares_apply (entries : List BillEntry) (q : List Char) :
    baseShares entries q
      = (entries.map (fun e => ((e.people.count q : ℕ) : ℚ) * price_per_person e)).sum := by
  unfold baseShares
  rw [baseShares_foldl]
  simp

theorem price_per_person_eq (e : BillEntry) :
    price_per_person e = e.price / (e.people.length : ℚ) := by
  unfold price_per_person
  rw [qdiv_eq]

theorem sum_ind_notmem (S : List (List Char)) (x : List Char) (hx : x ∉ S) :
    (S.map (fun p => if x = p then (1 : ℚ) else 0)).sum = 0 := by
  induction S with
  | nil => simp
  | cons s S' ih =>
    have hxs : x ≠ s := fun h => hx (h ▸ List.mem_cons_self s S')
    have hx' : x ∉ S' := fun h => hx (List.mem_cons_of_mem _ h)
    simp [hxs, ih hx']

theorem sum_ind_mem (S : List (List Char)) (x : List Char) (hnd : S.Nodup) (hx : x ∈ S) :
    (S.map (fun p => if x = p then (1 : ℚ) else 0)).sum = 1 := by
  induction S with
  | nil => cases hx
  | cons s S' ih =>
    rcases List.mem_cons.mp hx with h | h
    · subst h
      have hx' : x ∉ S' := (List.nodup_cons.mp hnd).1
      simp [sum_ind_notmem S' x hx']
    · have hxs : x ≠ s := fun hc => (List.nodup_cons.mp hnd).1 (hc ▸ h)
      simp [hxs, ih (List.nodup_cons.mp hnd).2 h]

theorem sum_count_over_set (S : List (List Char)) (l : List (List Char)) (hnd : S.Nodup)
    (hsub : ∀ x ∈ l, x ∈ S) :
    (S.map (fun p => ((l.count p : ℕ) : ℚ))).sum = (l.length : ℚ) := by
  induction l with
  | nil => simp
  | cons x l' ih =>
    have e1 : (S.map (fun p => ((List.count p (x :: l') : ℕ) : ℚ))).sum
        = (S.map (fun p => ((l'.count p : ℕ) : ℚ) + if x = p then (1 : ℚ) else 0)).sum := by
      apply congrArg List.sum
      apply List.map_congr_left
      intro p _
      by_cases h : x = p
      · simp [List.count_cons, h]
      · have h2 : ¬(x == p) = true := by simp [beq_iff_eq, h]
        simp [List.count_cons, h2, h]
    rw [e1, List.sum_map_add, ih (fun y hy => hsub y (List.mem_cons_of_mem _ hy)),
      sum_ind_mem S x hnd (hsub x (List.mem_cons_self _ _))]
    push_cast [List.length_cons]
    ring

theorem list_sum_swap (S : List (List Char)) (E : List BillEntry) (g : BillEntry → List Char → ℚ) :
    (S.map (fun p => (E.map (fun e => g e p)).sum)).sum
      = (E.map (fun e => (S.map (fun p => g e p)).sum)).sum := by
  induction E with
  | nil => simp
  | cons e E' ih =>
    simp only [List.map_cons, List.sum_cons, ← ih, List.sum_map_add]

theorem dropWhile_idem (p : Char → Bool) (l : List Char) :
    (l.dropWhile p).dropWhile p = l.dropWhile p := by
  induction l with
  | nil => rfl
  | cons c l' ih =>
    by_cases h : p c
    · simp [List.dropWhile_cons, h, ih]
    · simp [List.dropWhile_cons, h]

theorem trimL_idem (x : List Char) : trimL (trimL x) = trimL x := dropWhile_idem _ _

theorem trimR_idem (x : List Char) : trimR (trimR x) = trimR x := by
  unfold trimR
  rw [List.reverse_reverse, dropWhile_idem]

theorem trimL_eq_nil_iff (x : List Char) : trimL x = [] ↔ ∀ c ∈ x, c.isWhitespace := by
  unfold trimL
  rw [List.dropWhile_eq_nil_iff]

theorem trimR_eq_nil_iff (x : List Char) : trimR x = [] ↔ ∀ c ∈ x, c.isWhitespace := by
  unfold trimR
  rw [List.reverse_eq_nil_iff, List.dropWhile_eq_nil_iff]
  constructor
  · intro h c hc
    exact h c (List.mem_reverse.mpr hc)
  · intro h c hc
    exact h c (List.mem_reverse.mp hc)

theorem trimR_cons (c : Char) (x : List Char) :
    trimR (c :: x) = if trimR x = [] then (if c.isWhitespace then [] else [c])
      else c :: trimR x := by
  unfold trimR
  rw [List.reverse_cons, List.dropWhile_append]
  by_cases h : x.reverse.dropWhile Char.isWhitespace = []
  · rw [if_pos (by simp [h]), if_pos (by simp [h])]
    by_cases hc : c.isWhitespace
    · simp [List.dropWhile_cons, hc]
    · simp [List.dropWhile_cons, hc]
  · rw [if_neg (by simp [h]), if_neg (by simp [h])]
    simp

theorem trimL_trimR_comm (x : List Char) : trimL (trimR x) = trimR (trimL x) := by
  induction x with
  | nil => rfl
  | cons c x' ih =>
    by_cases hc : c.isWhitespace
    · rw [trimR_cons]
      have hl : trimL (c :: x') = trimL x' := by simp [trimL, List.dropWhile_cons, hc]
      by_cases h0 : trimR x' = []
      · have h1 : trimL x' = [] :=
          (trimL_eq_nil_iff x').mpr ((trimR_eq_nil_iff x').mp h0)
        rw [if_pos h0, if_pos hc, hl, h1]
        rfl
      · rw [if_neg h0, hl, ← ih]
        simp [trimL, List.dropWhile_cons, hc]
    · rw [trimR_cons]
      have hl : trimL (c :: x') = c :: x' := by simp [trimL, List.dropWhile_cons, hc]
      by_cases h0 : trimR x' = []
      · rw [if_pos h0, if_neg hc, hl, trimR_cons, if_pos h0, if_neg hc]
        simp [trimL, List.dropWhile_cons, hc]
      · rw [if_neg h0, hl, trimR_cons, if_neg h0]
        simp [trimL, List.dropWhile_cons, hc]

theorem trim_idem (x : List Char) : trim (trim x) = trim x := by
  unfold trim
  rw [← trimL_trimR_comm (trimR x), trimR_idem, trimL_idem]

theorem mem_updateSet_left (S ps : List (List Char)) (x : List Char) (hx : x ∈ S) :
    x ∈ updateSet S ps := by
  induction ps generalizing S with
  | nil => exact hx
  | cons p ps' ih =>
    unfold updateSet at ih ⊢
    simp only [List.foldl_cons]
    by_cases h : p ∈ S
    · rw [if_pos h]; exact ih S hx
    · rw [if_neg h]; exact ih _ (List.mem_append_left _ hx)

theorem mem_updateSet_self (S ps : List (List Char)) (x : List Char) (hx : x ∈ ps) :
    x ∈ updateSet S ps := by
  induction ps generalizing S with
  | nil => cases hx
  | cons p ps' ih =>
    unfold updateSet at ih ⊢
    simp only [List.foldl_cons]
    rcases List.mem_cons.mp hx with h | h
    · subst h
      by_cases hm : x ∈ S
      · rw [if_pos hm]
        exact mem_updateSet_left S ps' x hm
      · rw [if_neg hm]
        exact mem_updateSet_left _ ps' x (List.mem_append_right _ (List.mem_singleton.mpr rfl))
    · by_cases hm : p ∈ S
      · rw [if_pos hm]; exact ih S h
      · rw [if_neg hm]; exact ih _ h

theorem updateSet_nodup (S ps : List (List Char)) (h : S.Nodup) : (updateSet S ps).Nodup := by
  induction ps generalizing S with
  | nil => exact h
  | cons p ps' ih =>
    unfold updateSet at ih ⊢
    simp only [List.foldl_cons]
    by_cases hm : p ∈ S
    · rw [if_pos hm]; exact ih S h
    · rw [if_neg hm]
      refine ih _ ?_
      simp [List.nodup_append, h, hm]

theorem splitOnChar_ne_nil (c : Char) (l : List Char) : splitOnChar c l ≠ [] := by
  cases l with
  | nil => simp [splitOnChar]
  | cons d rest =>
    unfold splitOnChar
    by_cases h : d = c
    · simp [h]
    · rw [if_neg h]
      cases splitOnChar c rest <;> simp

theorem parse_people_list_ok (s : List Char) (ps : List (List Char))
    (h : parse_people_list s = Except.ok ps) : ps ≠ [] ∧ ∀ p ∈ ps, trim p = p := by
  unfold parse_people_list at h
  split at h
  next inner _ =>
    split at h
    next parts heq =>
      cases h
      constructor
      · intro hc
        exact splitOnChar_ne_nil ',' _ (List.map_eq_nil_iff.mp hc)
      · intro p hp
        rcases List.mem_map.mp hp with ⟨q, _, rfl⟩
        exact trim_idem q
    next => cases h
  next => cases h

/-- The invariant of every parser-built state: the participant set has
no duplicates and contains every participant of every entry, entries
have non-empty participant lists, and `total_before_adjustments` is the
sum of the entry prices. -/
def WellFormed (b : BillSplitter) : Prop :=
  b.people_set.Nodup ∧
  (∀ e ∈ b.entries, e.people ≠ [] ∧ ∀ p ∈ e.people, p ∈ b.people_set) ∧
  b.total_before_adjustments = (b.entries.map BillEntry.price).sum

theorem wellFormed_initial : WellFormed initialState := by
  refine ⟨List.nodup_nil, ?_, ?_⟩ <;> simp [initialState]

theorem parse_discount_body_wf (s : BillSplitter) (dv : List Char) (s' : BillSplitter)
    (h : parse_discount_body s dv = Except.ok s') (hw : WellFormed s) : WellFormed s' := by
  unfold parse_discount_body at h
  split at h
  · split at h
    · cases h
    · cases h
      exact hw
  · split at h
    · cases h
    · cases h
      exact hw

theorem parse_item_line_wf (s : BillSplitter) (line : List Char) (s' : BillSplitter)
    (h : parse_item_line s line = Except.ok s') (hw : WellFormed s) : WellFormed s' := by
  unfold parse_item_line at h
  split at h
  · cases h
  · next item_and_people price_part _ =>
    split at h
    · cases h
    · next item people_body _ =>
      split at h
      · cases h
      · next price _ =>
        split at h
        · cases h
        · next people hpp =>
          split at h
          · cases h
          · next hppne =>
            cases h
            obtain ⟨hpne, hptrim⟩ := parse_people_list_ok _ _ hpp
            have hmapid : people.map trim = people := by
              rw [List.map_congr_left hptrim, List.map_id']
            refine ⟨updateSet_nodup _ _ hw.1, ?_, ?_⟩
            · intro e he
              rcases List.mem_append.mp he with hold | hnew
              · exact ⟨(hw.2.1 e hold).1,
                  fun p hp => mem_updateSet_left _ _ _ ((hw.2.1 e hold).2 p hp)⟩
              · have he2 : e = BillEntry.mk (trim item) (people.map trim) price :=
                  List.mem_singleton.mp hnew
                subst he2
                refine ⟨?_, ?_⟩
                · simp only [hmapid]
                  exact hpne
                · intro p hp
                  simp only [hmapid] at hp
                  exact mem_updateSet_self _ _ _ hp
            · simp [qadd_eq, hw.2.2, List.map_append, List.sum_append]

theorem parse_line_wf (s : BillSplitter) (l : List Char) (s' : BillSplitter)
    (h : parse_line s l = Except.ok s') (hw : WellFormed s) : WellFormed s' := by
  unfold parse_line parse_line_core at h
  split at h
  · cases h
    exact hw
  · split at h
    · split at h
      · cases h
      · cases h
        exact hw
    · split at h
      · exact parse_discount_body_wf _ _ _ h hw
      · exact parse_item_line_wf _ _ _ h hw

theorem parseAll_wf (L : List (List Char)) : ∀ (s : BillSplitter) (n : ℕ) (b : BillSplitter),
    parseAll s n L = Except.ok b → WellFormed s → WellFormed b := by
  induction L with
  | nil =>
    intro s n b h hw
    cases h
    exact hw
  | cons l ls ih =>
    intro s n b h hw
    unfold parseAll at h
    split at h
    · cases h
    · next s2 hl => exact ih s2 (n + 1) b h (parse_line_wf s l s2 hl hw)

theorem totalSpending_wf (b : BillSplitter) (hw : WellFormed b) :
    totalSpending b = b.total_before_adjustments := by
  unfold totalSpending
  rw [qsum_eq]
  have h1 : (b.people_set.map (baseShares b.entries)).sum
      = (b.people_set.map (fun p =>
          (b.entries.map (fun e => ((e.people.count p : ℕ) : ℚ) * price_per_person e)).sum)).sum :=
    congrArg List.sum (List.map_congr_left (fun p _ => baseShares_apply _ p))
  rw [h1, list_sum_swap]
  have h2 : ∀ e ∈ b.entries,
      (b.people_set.map (fun p => ((e.people.count p : ℕ) : ℚ) * price_per_person e)).sum
        = e.price := by
    intro e he
    rw [List.sum_map_mul_right, sum_count_over_set b.people_set e.people hw.1 (hw.2.1 e he).2,
      price_per_person_eq]
    have hne : ((e.people.length : ℚ)) ≠ 0 := by
      have hl : e.people.length ≠ 0 := fun hc => (hw.2.1 e he).1 (List.length_eq_zero.mp hc)
      exact_mod_cast hl
    field_simp
  rw [List.map_congr_left h2, hw.2.2]

theorem sharesAfterCharge_formula (b : BillSplitter) (hT : 0 < totalSpending b)
    (p : List Char) :
    sharesAfterCharge b p
      = baseShares b.entries p + b.charge * (baseShares b.entries p / totalSpending b) := by
  unfold sharesAfterCharge
  by_cases hc : b.charge = 0
  · rw [if_neg (fun hh => hh.2 hc), hc]
    ring
  · rw [if_pos ⟨hT, hc⟩, qadd_eq, qmul_eq, qdiv_eq]

theorem floor_half : ⌊(1 / 2 : ℚ)⌋ = 0 := by
  rw [Int.floor_eq_iff]
  norm_num

theorem ceil_neg_half : ⌈(-(1 / 2) : ℚ)⌉ = 0 := by
  rw [Int.ceil_eq_iff]
  norm_num

theorem roundHU_zero : roundHU 0 = 0 := by
  rw [roundHU_def, if_pos le_rfl]
  norm_num [floor_half]

theorem discount_amount_zero (b : BillSplitter) (h : b.discount.2 = 0) :
    discount_amount b = 0 := by
  unfold discount_amount
  split
  · rw [qmul_eq, qdiv_eq, h]
    norm_num [roundHU_zero]
  · exact h

theorem adjustedShares_formula (b : BillSplitter) (hT : 0 < totalSpending b) (p : List Char) :
    adjustedShares b p = baseShares b.entries p
      + b.charge * (baseShares b.entries p / totalSpending b)
      - discount_amount b * (baseShares b.entries p / totalSpending b) := by
  unfold adjustedShares
  by_cases hd : b.discount.2 = 0
  · rw [if_neg (fun hh => hh.2 hd), sharesAfterCharge_formula b hT p, discount_amount_zero b hd]
    ring
  · rw [if_pos ⟨hT, hd⟩, qsub_eq, qmul_eq, qdiv_eq, sharesAfterCharge_formula b hT p]

theorem totalAfterAdjustments_formula (b : BillSplitter) (hT : 0 < totalSpending b) :
    totalAfterAdjustments b = totalSpending b + b.charge - discount_amount b := by
  unfold totalAfterAdjustments
  rw [qsum_eq]
  have h1 : (b.people_set.map (adjustedShares b)).sum
      = (b.people_set.map (fun p => baseShares b.entries p *
          (1 + b.charge / totalSpending b - discount_amount b / totalSpending b))).sum := by
    refine congrArg List.sum (List.map_congr_left ?_)
    intro p _
    rw [adjustedShares_formula b hT p]
    ring
  rw [h1, List.sum_map_mul_right]
  have h2 : (b.people_set.map (fun p => baseShares b.entries p)).sum = totalSpending b := by
    unfold totalSpending
    rw [qsum_eq]
  rw [h2]
  have hT' : totalSpending b ≠ 0 := ne_of_gt hT
  field_simp

theorem sortedPeople_perm (b : BillSplitter) : (sortedPeople b).Perm b.people_set :=
  List.perm_insertionSort _ _

theorem sortedPeople_sorted (b : BillSplitter) :
    List.Sorted (fun a c => a ≤ c) (sortedPeople b) :=
  List.sorted_insertionSort _ _

theorem sortedPeople_ne_nil (b : BillSplitter) (hne : b.people_set ≠ []) :
    sortedPeople b ≠ [] := by
  intro hc
  have hlen := (sortedPeople_perm b).length_eq
  rw [hc] at hlen
  exact hne (List.length_eq_zero.mp hlen.symm)

theorem calcShares_foldl (b : BillSplitter) (ps : List (List Char))
    (acc : List (List Char × ℚ)) (t : ℚ) :
    ps.foldl (fun acc2 p => (acc2.1 ++ [(p, roundHU (adjustedShares b p))],
        qadd acc2.2 (roundHU (adjustedShares b p)))) (acc, t)
      = (acc ++ ps.map (fun p => (p, roundHU (adjustedShares b p))),
         t + (ps.map (fun p => roundHU (adjustedShares b p))).sum) := by
  induction ps generalizing acc t with
  | nil => simp
  | cons p ps' ih =>
    simp only [List.foldl_cons]
    rw [ih]
    simp [qadd_eq, add_assoc]

theorem calculate_shares_eq (b : BillSplitter) (hne : b.people_set ≠ []) :
    calculate_shares b = some
      (((sortedPeople b).dropLast.map (fun p => (p, roundHU (adjustedShares b p)))) ++
        [((sortedPeople b).getLastD [],
          roundHE (totalAfterAdjustments b -
            ((sortedPeople b).dropLast.map (fun p => roundHU (adjustedShares b p))).sum))]) := by
  unfold calculate_shares
  rw [if_neg (sortedPeople_ne_nil b hne), calcShares_foldl]
  simp only [List.nil_append, zero_add, qsub_eq, List.map_map]

/-- A rational that is an integer number of cents. -/
def Cent (q : ℚ) : Prop := ∃ n : ℤ, q = (n : ℚ) / 100

theorem cent_roundHU (x : ℚ) : Cent (roundHU x) := by
  rw [roundHU_def]
  by_cases h : 0 ≤ x
  · exact ⟨_, by rw [if_pos h]⟩
  · exact ⟨_, by rw [if_neg h]⟩

theorem cent_add (a b : ℚ) (ha : Cent a) (hb : Cent b) : Cent (a + b) := by
  obtain ⟨m, rfl⟩ := ha
  obtain ⟨n, rfl⟩ := hb
  exact ⟨m + n, by push_cast; ring⟩

theorem cent_sub (a b : ℚ) (ha : Cent a) (hb : Cent b) : Cent (a - b) := by
  obtain ⟨m, rfl⟩ := ha
  obtain ⟨n, rfl⟩ := hb
  exact ⟨m - n, by push_cast; ring⟩

theorem cent_sum (l : List ℚ) (h : ∀ x ∈ l, Cent x) : Cent l.sum := by
  induction l with
  | nil => exact ⟨0, by norm_num⟩
  | cons x l' ih =>
    rw [List.sum_cons]
    exact cent_add x l'.sum (h x (List.mem_cons_self _ _))
      (ih (fun y hy => h y (List.mem_cons_of_mem _ hy)))

theorem roundHEint_intCast (n : ℤ) : roundHEint ((n : ℤ) : ℚ) = n := by
  rw [roundHEint_def, Int.floor_intCast]
  rw [if_pos (by norm_num)]

theorem roundHE_cent (q : ℚ) (h : Cent q) : roundHE q = q := by
  obtain ⟨n, rfl⟩ := h
  rw [roundHE_def]
  have h1 : ((n : ℚ) / 100) * 100 = (n : ℚ) := by
    field_simp
  rw [h1, roundHEint_intCast]

theorem roundHU_cent (q : ℚ) (h : Cent q) : roundHU q = q := by
  obtain ⟨n, rfl⟩ := h
  rw [roundHU_def]
  have h1 : ((n : ℚ) / 100) * 100 = (n : ℚ) := by
    field_simp
  by_cases h0 : (0 : ℚ) ≤ (n : ℚ) / 100
  · rw [if_pos h0, h1, add_comm, Int.floor_add_int, floor_half, zero_add]
  · rw [if_neg h0, h1, sub_eq_add_neg, add_comm, Int.ceil_add_int, ceil_neg_half, zero_add]

/-!
Claim theorems.
-/

/-- C3 (code bug): the claim promises that a bill with zero
`totalSpending` — including one with no items at all — yields
zero-filled shares for every participant and raises no error.  For the
all-zero-price case this holds (third and fourth conjuncts: a
two-person zero bill yields zero shares with no adjustments and no
division error), but for a bill with no items `sorted_people` is empty
and `sorted_people[-1]` raises an uncaught `IndexError`
(first and second conjuncts: `calculate_shares` takes its failure
branch, and processing an empty file reports a processing error instead
of an empty report). -/
theorem c3_zero_spending :
    calculate_shares initialState = none ∧
    process_file [] = Except.error ProcError.calcError ∧
    process_file [("A[P,Q], 0").data] =
      Except.ok [(("P").data, 0), (("Q").data, 0)] ∧
    totalSpending initialState = 0 :=
  ⟨rfl, rfl, rfl, rfl⟩

/-- C4 (code bug): the claim (and the spec) require `Item[], 10` to be
rejected with a parse error, and the code even contains an
`Empty people list` check — but `''.split(',') == ['']`, so the parsed
people list holds one empty name and is never empty, the check is
unreachable, and the
line is accepted, adding an entry whose single participant is the empty
string; the bill then computes a share for the empty-named participant. -/
theorem c4_empty_people_list :
    parse_line initialState (("Item[], 10").data) =
      Except.ok
        { entries := [{ item := ("Item").data, people := [[]], price := 10 }],
          charge := 0, discount := (DiscountKind.value, 0),
          total_before_adjustments := 10, people_set := [[]] } ∧
    process_file [("Item[], 10").data] = Except.ok [([], 10)] :=
  ⟨rfl, rfl⟩

/-- C9 (confirmed): a participant occurring `k` times in an item's
participant list receives `k * (price / N)` from that item, where `N`
is the length of the list with duplicates counted; participant lists
are not deduplicated. -/
theorem c9_duplicate_participants (entries : List BillEntry) (p : List Char) :
    baseShares entries p
      = (entries.map (fun e =>
          ((e.people.count p : ℕ) : ℚ) * (e.price / (e.people.length : ℚ)))).sum := by
  rw [baseShares_apply]
  exact congrArg _ (List.map_congr_left (fun e _ => by rw [price_per_person_eq]))

/-- C10 (confirmed): whenever `parse_line` raises, the state at the
moment of the raise is exactly the state before the call — every raise
site in `parse_line` precedes every mutation of `entries`, `charge`,
`discount`, `total_before_adjustments` and `people_set`. -/
theorem c10_error_preserves_state (s : BillSplitter) (l : List Char) (e : List Char)
    (s' : BillSplitter) (h : parse_line s l = Except.error (e, s')) : s' = s := by
  unfold parse_line parse_line_core parse_discount_body parse_item_line at h
  repeat' split at h
  all_goals cases h
  all_goals rfl

/-- Witness for C10 at a concrete failing line. -/
theorem c10_error_preserves_state_witness : initialState = initialState :=
  c10_error_preserves_state initialState (("junk").data)
    (wrapMsg (("junk").data) unpackMsg) initialState rfl

theorem dropWhile_append_of_fix (p : Char → Bool) (l1 l2 : List Char)
    (h : l2.dropWhile p = l2) : (l1 ++ l2).dropWhile p = l1.dropWhile p ++ l2 := by
  rw [List.dropWhile_append]
  by_cases h1 : (l1.dropWhile p).isEmpty
  · rw [if_pos h1, h]
    rw [List.isEmpty_iff] at h1
    rw [h1, List.nil_append]
  · rw [if_neg h1]

theorem trimR_append_fix (pfx r : List Char)
    (h : pfx.reverse.dropWhile Char.isWhitespace = pfx.reverse) :
    trimR (pfx ++ r) = pfx ++ trimR r := by
  unfold trimR
  rw [List.reverse_append, dropWhile_append_of_fix _ _ _ h, List.reverse_append,
    List.reverse_reverse]

theorem trim_append_fix (pfx r : List Char)
    (hR : pfx.reverse.dropWhile Char.isWhitespace = pfx.reverse)
    (hL : pfx.dropWhile Char.isWhitespace = pfx) (hne : ¬pfx.isEmpty) :
    trim (pfx ++ r) = pfx ++ trimR r := by
  unfold trim trimL
  rw [trimR_append_fix pfx r hR, List.dropWhile_append, hL, if_neg hne]

/-- C7 (confirmed): a line with the misspelled prefix `disount:` is
parsed exactly like the same line with `discount:` — both reach the
same discount branch with the same after-colon text, so the resulting
states (and hence any downstream `SharesResult`) are identical. -/
theorem c7_misspelling_equivalence (s : BillSplitter) (r : List Char) :
    parse_line s (("disount:").data ++ r) = parse_line s (("discount:").data ++ r) := by
  unfold parse_line
  rw [trim_append_fix (("disount:").data) r (by decide) (by decide) (by decide),
    trim_append_fix (("discount:").data) r (by decide) (by decide) (by decide)]
  generalize trimR r = t
  rfl

/-- C2 (confirmed): on any parsed bill with at least one participant,
the result maps every participant except the lexicographically last
(names sorted ascending by code-point comparison; the sort is a sorted
permutation of the participant set) to their exact adjusted share
rounded half-up to 2 decimals, and the last participant to the
remainder `totalAfterAdjustments - runningTotal` quantized with the
context-default (`ROUND_HALF_EVEN`, the standard rounding) where
`runningTotal` is the sum of the other rounded shares; the result is a
deterministic function of the parsed state. -/
theorem c2_remainder_rounding (L : List (List Char)) (b : BillSplitter)
    (hp : parseAll initialState 1 L = Except.ok b) (hne : b.people_set ≠ []) :
    List.Sorted (fun a c => a ≤ c) (sortedPeople b) ∧
    (sortedPeople b).Perm b.people_set ∧
    calculate_shares b = some
      (((sortedPeople b).dropLast.map (fun p => (p, roundHU (adjustedShares b p)))) ++
        [((sortedPeople b).getLastD [],
          roundHE (totalAfterAdjustments b -
            ((sortedPeople b).dropLast.map (fun p => roundHU (adjustedShares b p))).sum))]) :=
  ⟨sortedPeople_sorted b, sortedPeople_perm b, calculate_shares_eq b hne⟩

/-- The spec's running example: `Pizza[Alice,Bob], 20.00` and
`Soda[Alice], 2.00`. -/
def pizzaLines : List (List Char) :=
  [("Pizza[Alice,Bob], 20.00").data, ("Soda[Alice], 2.00").data]

/-- The state that parsing `pizzaLines` produces. -/
def pizzaState : BillSplitter :=
  { entries := [{ item := ("Pizza").data, people := [("Alice").data, ("Bob").data], price := 20 },
                { item := ("Soda").data, people := [("Alice").data], price := 2 }],
    charge := 0, discount := (DiscountKind.value, 0),
    total_before_adjustments := 22,
    people_set := [("Alice").data, ("Bob").data] }

/-- Witness for C2 on the spec's running example. -/
theorem c2_remainder_rounding_witness :
    List.Sorted (fun a c => a ≤ c) (sortedPeople pizzaState) ∧
    (sortedPeople pizzaState).Perm pizzaState.people_set ∧
    calculate_shares pizzaState = some
      (((sortedPeople pizzaState).dropLast.map
          (fun p => (p, roundHU (adjustedShares pizzaState p)))) ++
        [((sortedPeople pizzaState).getLastD [],
          roundHE (totalAfterAdjustments pizzaState -
            ((sortedPeople pizzaState).dropLast.map
              (fun p => roundHU (adjustedShares pizzaState p))).sum))]) :=
  c2_remainder_rounding pizzaLines pizzaState rfl (by decide)

/-- Counterexample input for C1: a single item with a sub-cent price. -/
def c1xLines : List (List Char) := [("A[P], 10.005").data]

/-- The state that parsing `c1xLines` produces (`10.005 = 2001/200`). -/
def c1xState : BillSplitter :=
  { entries := [{ item := ("A").data, people := [("P").data], price := mkRat 2001 200 }],
    charge := 0, discount := (DiscountKind.value, 0),
    total_before_adjustments := mkRat 2001 200,
    people_set := [("P").data] }

/-- Counterexample for C1 as stated: for the parsed one-participant bill
`A[P], 10.005` (zero charge, zero discount) the program returns the
single share `10.00`, which sums to `10`, while
`round2(totalBeforeAdjustments + charge - discountAmount)` with
half-up rounding is `10.01 = 1001/100` — the final remainder is
quantized with the default half-even rounding, so the claimed sum
equation fails at half-cent ties. -/
theorem c1_sum_invariant_counterexample :
    parseAll initialState 1 c1xLines = Except.ok c1xState ∧
    process_file c1xLines = Except.ok [(("P").data, 10)] ∧
    ([(("P").data, (10 : ℚ))].map Prod.snd).sum = 10 ∧
    roundHU (c1xState.total_before_adjustments + c1xState.charge - discount_amount c1xState)
      = mkRat 1001 100 ∧
    (10 : ℚ) ≠ mkRat 1001 100 := by
  refine ⟨rfl, rfl, by simp, ?_, by decide⟩
  have h1 : c1xState.total_before_adjustments + c1xState.charge - discount_amount c1xState
      = mkRat 2001 200 := by
    have h2 : discount_amount c1xState = 0 := rfl
    have h3 : c1xState.total_before_adjustments = mkRat 2001 200 := rfl
    have h4 : c1xState.charge = 0 := rfl
    rw [h2, h3, h4]
    ring
  have h3 : (mkRat 2001 200 : ℚ) * 100 + 1 / 2 = ((1001 : ℤ) : ℚ) := by
    rw [Rat.mkRat_eq_div]
    norm_num
  rw [h1, roundHU_def, if_pos (by rw [Rat.mkRat_eq_div]; norm_num), h3, Int.floor_intCast,
    Rat.mkRat_eq_div]
  norm_num

/-- C1 (amended): on any parsed bill with positive `totalSpending`
whose adjusted total `totalBeforeAdjustments + charge - discountAmount`
is an exact integer number of cents, the returned shares sum exactly to
`round2` of that total (and indeed to the total itself).  The two
restrictions are forced by the counterexample (a sub-cent adjusted
total hits the half-even remainder quantization) and by the
`total_spending > 0` guard, which skips all adjustments on a
zero-spending bill even when `charge`/`discount` are non-zero. -/
theorem c1_sum_invariant_amended (L : List (List Char)) (b : BillSplitter)
    (hp : parseAll initialState 1 L = Except.ok b)
    (hT : 0 < totalSpending b)
    (hcent : Cent (b.total_before_adjustments + b.charge - discount_amount b)) :
    ∃ r, calculate_shares b = some r ∧
      (r.map Prod.snd).sum
        = roundHU (b.total_before_adjustments + b.charge - discount_amount b) := by
  have hw : WellFormed b := parseAll_wf L initialState 1 b hp wellFormed_initial
  have hne : b.people_set ≠ [] := by
    intro hc
    have h0 : totalSpending b = 0 := by
      unfold totalSpending qsum
      rw [hc]
      rfl
    rw [h0] at hT
    exact lt_irrefl 0 hT
  refine ⟨_, calculate_shares_eq b hne, ?_⟩
  rw [List.map_append, List.sum_append, List.map_map]
  have hcomp : (Prod.snd ∘ fun p => (p, roundHU (adjustedShares b p)))
      = fun p => roundHU (adjustedShares b p) := rfl
  rw [hcomp]
  have hcentR : Cent ((sortedPeople b).dropLast.map
      (fun p => roundHU (adjustedShares b p))).sum := by
    refine cent_sum _ ?_
    intro x hx
    rcases List.mem_map.mp hx with ⟨p, _, rfl⟩
    exact cent_roundHU _
  have hTAA : totalAfterAdjustments b
      = b.total_before_adjustments + b.charge - discount_amount b := by
    rw [totalAfterAdjustments_formula b hT, totalSpending_wf b hw]
  have hcTAA : Cent (totalAfterAdjustments b) := hTAA ▸ hcent
  rw [List.map_cons, List.map_nil, List.sum_cons, List.sum_nil]
  rw [roundHE_cent _ (cent_sub _ _ hcTAA hcentR), roundHU_cent _ hcent, hTAA]
  ring

/-- Witness for C1 (amended) on the spec's running example
(`totalSpending = 22 > 0`, adjusted total `22` is a whole number of
cents, and the shares `12.00 + 10.00` sum to `22 = round2(22)`). -/
theorem c1_sum_invariant_amended_witness :
    ∃ r, calculate_shares pizzaState = some r ∧
      (r.map Prod.snd).sum = roundHU (pizzaState.total_before_adjustments +
        pizzaState.charge - discount_amount pizzaState) :=
  c1_sum_invariant_amended pizzaLines pizzaState rfl (by decide)
    ⟨2200, by
      have h2 : discount_amount pizzaState = 0 := rfl
      have h3 : pizzaState.total_before_adjustments = 22 := rfl
      have h4 : pizzaState.charge = 0 := rfl
      rw [h2, h3, h4]
      norm_num⟩

/-- Counterexample input for C5: negative spending with a percentage
discount. -/
def c5xLines : List (List Char) := [("A[P], -1").data, ("discount: 10%").data]

/-- The state that parsing `c5xLines` produces. -/
def c5xState : BillSplitter :=
  { entries := [{ item := ("A").data, people := [("P").data], price := -1 }],
    charge := 0, discount := (DiscountKind.percentage, 10),
    total_before_adjustments := -1,
    people_set := [("P").data] }

/-- Counterexample for C5 as stated: the parser accepts negative prices
(the spec's only price validation is the numeral format), and this bill
has `totalSpending = -1 ≠ 0` and a non-zero percentage discount, yet
the guard `total_spending > 0` skips the discount entirely: the
pre-rounding share stays `-1` instead of the claimed
`-1 - discountAmount * (individualTotal/totalSpending) = -9/10`. -/
theorem c5_percentage_discount_counterexample :
    parseAll initialState 1 c5xLines = Except.ok c5xState ∧
    totalSpending c5xState ≠ 0 ∧
    c5xState.discount = (DiscountKind.percentage, 10) ∧
    adjustedShares c5xState (("P").data) = -1 ∧
    baseShares c5xState.entries (("P").data) -
      discount_amount c5xState *
        (baseShares c5xState.entries (("P").data) / totalSpending c5xState) = -(9 / 10) ∧
    (-1 : ℚ) ≠ -(9 / 10) := by
  refine ⟨rfl, by decide, rfl, by decide, ?_, by norm_num⟩
  have hb : baseShares c5xState.entries (("P").data) = -1 := by decide
  have hT : totalSpending c5xState = -1 := by decide
  have hd : discount_amount c5xState = mkRat (-1) 10 := by decide
  rw [hb, hT, hd, Rat.mkRat_eq_div]
  norm_num

/-- C5 (amended): the claim holds with nonzero `totalSpending`
strengthened to positive `totalSpending` (the guard in the code is
`total_spending > 0`): the distributed amount of a non-zero percentage
discount is `round2((totalBeforeAdjustments + charge) * (pct/100))` —
half-up-rounded before distribution, with the charge included in the
base — and every participant's share is then reduced by
`discountAmount * (individualTotal[p] / totalSpending)` with the
original individual totals. -/
theorem c5_percentage_discount_amended (L : List (List Char)) (b : BillSplitter)
    (hp : parseAll initialState 1 L = Except.ok b)
    (hkind : b.discount.1 = DiscountKind.percentage) (hv : b.discount.2 ≠ 0)
    (hT : 0 < totalSpending b) (p : List Char) :
    discount_amount b
      = roundHU ((b.total_before_adjustments + b.charge) * (b.discount.2 / 100)) ∧
    adjustedShares b p = sharesAfterCharge b p -
      discount_amount b * (baseShares b.entries p / totalSpending b) := by
  constructor
  · unfold discount_amount
    rw [hkind, qmul_eq, qadd_eq, qdiv_eq]
  · unfold adjustedShares
    rw [if_pos ⟨hT, hv⟩, qsub_eq, qmul_eq, qdiv_eq]

/-- The spec's second example: the running example plus `discount: 10%`. -/
def pizzaDiscLines : List (List Char) :=
  [("Pizza[Alice,Bob], 20.00").data, ("Soda[Alice], 2.00").data, ("discount: 10%").data]

/-- The state that parsing `pizzaDiscLines` produces. -/
def pizzaDiscState : BillSplitter :=
  { entries := [{ item := ("Pizza").data, people := [("Alice").data, ("Bob").data], price := 20 },
                { item := ("Soda").data, people := [("Alice").data], price := 2 }],
    charge := 0, discount := (DiscountKind.percentage, 10),
    total_before_adjustments := 22,
    people_set := [("Alice").data, ("Bob").data] }

/-- Witness for C5 (amended) on the spec's discount example. -/
theorem c5_percentage_discount_amended_witness :
    discount_amount pizzaDiscState
      = roundHU ((pizzaDiscState.total_before_adjustments + pizzaDiscState.charge) *
          (pizzaDiscState.discount.2 / 100)) ∧
    adjustedShares pizzaDiscState (("Alice").data)
      = sharesAfterCharge pizzaDiscState (("Alice").data) -
        discount_amount pizzaDiscState *
          (baseShares pizzaDiscState.entries (("Alice").data) / totalSpending pizzaDiscState) :=
  c5_percentage_discount_amended pizzaDiscLines pizzaDiscState rfl rfl (by decide) (by decide)
    (("Alice").data)

/-- Counterexample input for C6: negative spending with a flat charge. -/
def c6xLines : List (List Char) := [("A[P], -1").data, ("charge: 3").data]

/-- The state that parsing `c6xLines` produces. -/
def c6xState : BillSplitter :=
  { entries := [{ item := ("A").data, people := [("P").data], price := -1 }],
    charge := 3, discount := (DiscountKind.value, 0),
    total_before_adjustments := -1,
    people_set := [("P").data] }

/-- Counterexample for C6 as stated: this parsed bill has
`totalSpending = -1 ≠ 0` and `charge = 3 ≠ 0`, yet the
`total_spending > 0` guard skips the charge distribution: the
pre-rounding share stays `-1` instead of receiving the claimed addend
`charge * (individualTotal/totalSpending) = 3`, which would give `2`. -/
theorem c6_charge_proportional_counterexample :
    parseAll initialState 1 c6xLines = Except.ok c6xState ∧
    totalSpending c6xState ≠ 0 ∧
    c6xState.charge ≠ 0 ∧
    sharesAfterCharge c6xState (("P").data) = -1 ∧
    baseShares c6xState.entries (("P").data) + c6xState.charge *
      (baseShares c6xState.entries (("P").data) / totalSpending c6xState) = 2 ∧
    (-1 : ℚ) ≠ 2 := by
  refine ⟨rfl, by decide, by decide, by decide, ?_, by norm_num⟩
  have hb : baseShares c6xState.entries (("P").data) = -1 := by decide
  have hT : totalSpending c6xState = -1 := by decide
  have hc : c6xState.charge = 3 := rfl
  rw [hb, hT, hc]
  norm_num

/-- C6 (amended): with nonzero `totalSpending` strengthened to
positive `totalSpending` (the guard of the code), the post-charge share
of every participant is `individualTotal[p] + charge *
(individualTotal[p] / totalSpending)` — the flat surcharge is
distributed in proportion to spending, not split evenly — and a
participant with double another participant owes double the
charge adjustment. -/
theorem c6_charge_proportional_amended (L : List (List Char)) (b : BillSplitter)
    (hp : parseAll initialState 1 L = Except.ok b)
    (hT : 0 < totalSpending b) (hc : b.charge ≠ 0) (p q : List Char) :
    sharesAfterCharge b p
      = baseShares b.entries p + b.charge * (baseShares b.entries p / totalSpending b) ∧
    (baseShares b.entries p = 2 * baseShares b.entries q →
      sharesAfterCharge b p - baseShares b.entries p
        = 2 * (sharesAfterCharge b q - baseShares b.entries q)) := by
  have h1 := sharesAfterCharge_formula b hT
  refine ⟨h1 p, ?_⟩
  intro hdouble
  rw [h1 p, h1 q, hdouble]
  ring

/-- The running example plus `charge: 11`. -/
def pizzaChargeLines : List (List Char) :=
  [("Pizza[Alice,Bob], 20.00").data, ("Soda[Alice], 2.00").data, ("charge: 11").data]

/-- The state that parsing `pizzaChargeLines` produces. -/
def pizzaChargeState : BillSplitter :=
  { entries := [{ item := ("Pizza").data, people := [("Alice").data, ("Bob").data], price := 20 },
                { item := ("Soda").data, people := [("Alice").data], price := 2 }],
    charge := 11, discount := (DiscountKind.value, 0),
    total_before_adjustments := 22,
    people_set := [("Alice").data, ("Bob").data] }

/-- Witness for C6 (amended): Alice's individual total (12) is not
double Bob's (10), but the post-charge share formula is instantiated
concretely. -/
theorem c6_charge_proportional_amended_witness :
    sharesAfterCharge pizzaChargeState (("Alice").data)
      = baseShares pizzaChargeState.entries (("Alice").data) + pizzaChargeState.charge *
        (baseShares pizzaChargeState.entries (("Alice").data) / totalSpending pizzaChargeState) ∧
    (baseShares pizzaChargeState.entries (("Alice").data)
        = 2 * baseShares pizzaChargeState.entries (("Bob").data) →
      sharesAfterCharge pizzaChargeState (("Alice").data) -
          baseShares pizzaChargeState.entries (("Alice").data)
        = 2 * (sharesAfterCharge pizzaChargeState (("Bob").data) -
            baseShares pizzaChargeState.entries (("Bob").data))) :=
  c6_charge_proportional_amended pizzaChargeLines pizzaChargeState rfl (by decide) (by decide)
    (("Alice").data) (("Bob").data)

theorem parse_item_line_msg (s : BillSplitter) (line e : List Char) (s' : BillSplitter)
    (h : parse_item_line s line = Except.error (e, s')) :
    ∃ inner, e = wrapMsg line inner := by
  unfold parse_item_line at h
  repeat' split at h
  all_goals cases h
  all_goals exact ⟨_, rfl⟩

theorem infix_wrapMsg (line inner : List Char) : line <:+: wrapMsg line inner :=
  ⟨("Error parsing line ").data ++ [Char.ofNat 39],
   [Char.ofNat 39] ++ (": ").data ++ inner, by simp [wrapMsg]⟩

/-- The condition under which a stripped line reaches the item branch of
`parse_line`: non-blank and matching no directive prefix. -/
def isItemLine (line0 : List Char) : Bool :=
  !(trim line0).isEmpty &&
  !(startsWithPfx (("charge:").data) ((trim line0).map Char.toLower)) &&
  !(startsWithPfx (("discount:").data) ((trim line0).map Char.toLower)) &&
  !(startsWithPfx (("disount:").data) ((trim line0).map Char.toLower))

theorem parse_line_item_msg (s : BillSplitter) (line0 e : List Char) (s' : BillSplitter)
    (hitem : isItemLine line0 = true) (h : parse_line s line0 = Except.error (e, s')) :
    trim line0 <:+: e := by
  unfold isItemLine at hitem
  simp only [Bool.and_eq_true, Bool.not_eq_true'] at hitem
  obtain ⟨⟨⟨h1, h2⟩, h3⟩, h4⟩ := hitem
  have h1' : ¬trim line0 = [] := by
    intro hc
    rw [hc] at h1
    simp at h1
  unfold parse_line parse_line_core at h
  rw [if_neg h1', if_neg (by simp [h2]), if_neg (by simp [h3, h4])] at h
  obtain ⟨inner, rfl⟩ := parse_item_line_msg s (trim line0) e s' h
  exact infix_wrapMsg (trim line0) inner

theorem parseAll_append_error (pre : List (List Char)) : ∀ (s s1 : BillSplitter) (n : ℕ)
    (bad : List Char) (post : List (List Char)) (e : List Char) (s' : BillSplitter),
    parseAll s n pre = Except.ok s1 → parse_line s1 bad = Except.error (e, s') →
    parseAll s n (pre ++ bad :: post)
      = Except.error (ProcError.parseError (n + pre.length) e) := by
  induction pre with
  | nil =>
    intro s s1 n bad post e s' hpre hbad
    cases hpre
    simp only [List.nil_append, List.length_nil, Nat.add_zero]
    unfold parseAll
    rw [hbad]
  | cons l ls ih =>
    intro s s1 n bad post e s' hpre hbad
    simp only [List.cons_append]
    unfold parseAll at hpre ⊢
    split at hpre
    · cases hpre
    · next s2 hl =>
      have hstep := ih s2 s1 (n + 1) bad post e s' hpre hbad
      have harith : n + 1 + ls.length = n + (l :: ls).length := by
        simp [List.length_cons]
        omega
      rw [harith] at hstep
      exact hstep

/-- Counterexample for C8 as stated: the malformed directive
`charge: abc` halts processing at line 1 with a cause, but the reported
message is the `Invalid price format:  abc` text of `parse_price`, which does
not contain the original line text — the directive branches of
`parse_line` raise outside the `try` block, so their errors are never
wrapped with the line. -/
theorem c8_directive_message_counterexample :
    process_file [("charge: abc").data] =
      Except.error (ProcError.parseError 1 (("Invalid price format:  abc").data)) ∧
    trim (("charge: abc").data) = ("charge: abc").data ∧
    ¬(("charge: abc").data <:+: ("Invalid price format:  abc").data) := by
  refine ⟨rfl, rfl, ?_⟩
  intro hinf
  have h2 : 'h' ∈ ("Invalid price format:  abc").data :=
    hinf.subset (by decide : 'h' ∈ ("charge: abc").data)
  exact absurd h2 (by decide)

/-- C8 (amended): a failing line halts processing of the whole file
with no shares computed, the error carries the 1-based position of the
first failing line and a human-readable cause for every kind of parse
failure, and for item-line failures the message also carries the
(stripped) original line text; malformed directives report only the
offending value substring, not the line text. -/
theorem c8_halt_on_first_error (pre : List (List Char)) (bad : List Char)
    (post : List (List Char)) (s : BillSplitter) (e : List Char) (s' : BillSplitter)
    (hpre : parseAll initialState 1 pre = Except.ok s)
    (hbad : parse_line s bad = Except.error (e, s')) :
    process_file (pre ++ bad :: post)
      = Except.error (ProcError.parseError (pre.length + 1) e) ∧
    (isItemLine bad = true → trim bad <:+: e) := by
  constructor
  · unfold process_file
    rw [parseAll_append_error pre initialState s 1 bad post e s' hpre hbad, Nat.add_comm]
  · intro hitem
    exact parse_line_item_msg s bad e s' hitem hbad

/-- A one-line well-formed prefix for the C8 witness. -/
def c8wPre : List (List Char) := [("A[B], 1").data]

/-- The state after parsing `c8wPre`. -/
def c8wState : BillSplitter :=
  { entries := [{ item := ("A").data, people := [("B").data], price := 1 }],
    charge := 0, discount := (DiscountKind.value, 0),
    total_before_adjustments := 1,
    people_set := [("B").data] }

/-- A malformed item line (missing the closing bracket-comma). -/
def c8wBad : List Char := ("B[C] 2").data

/-- Witness for C8 (amended): the file halts at its second line with
the wrapped item-line message, and the message contains the line. -/
theorem c8_halt_on_first_error_witness :
    process_file (c8wPre ++ c8wBad :: [("C[D], 3").data])
      = Except.error (ProcError.parseError (c8wPre.length + 1)
          (wrapMsg (trim c8wBad) unpackMsg)) ∧
    (isItemLine c8wBad = true → trim c8wBad <:+: wrapMsg (trim c8wBad) unpackMsg) :=
  c8_halt_on_first_error c8wPre c8wBad [("C[D], 3").data] c8wState
    (wrapMsg (trim c8wBad) unpackMsg) c8wState rfl rfl
